import Mathlib

/-!
Verification of the lazy static word-index subsystem of the `random_word`
crate (repository `xkcd-936`).

The decompressed corpus text is modelled abstractly as a `List Char`
(one Unicode scalar value per `Char`, matching Rust's `char`): the
compressed blobs and the brotli decompressor are external build inputs,
so every statement is parameterized by the decompressed text.

`src/words.rs` is embedded by:
  * `rustLines` — Rust's `str::lines` (split inclusive on LF; strip one
    trailing LF per chunk and, only when an LF was stripped, one
    trailing CR; an unterminated final chunk is kept verbatim);
  * `Words.init` — the word-table builder `init_<lang>` (collect lines);
  * `Words.init_len`, `Words.get_len` — the length index
    (`init_<lang>_len`, keyed by `word.chars().count()`), with the
    `AHashMap` modelled as an association list whose buckets grow by
    push-at-end, exactly as `map.entry(k).or_insert_with(Vec::new).push(w)`;
  * `Words.init_starts_with`, `Words.get_starts_with` — the first-char
    index; the `expect("empty word")` panic is modelled by `Option`
    (`none` = panic);
  * `getOrInit` / `callN` — the `OnceLock::get_or_init` caching discipline.

`src/lib.rs` is embedded in namespace `RandomWord` (`all`, `get`,
`all_len`, `get_len`, `all_starts_with`, `get_starts_with`); the random
draw of `rand`'s `choose(&mut rng())` is modelled by an arbitrary index
`i` reduced modulo the slice length, `none` meaning the empty-slice case.
-/

abbrev Wrd := List Char

/-- Remove one trailing occurrence of `c`, as Rust's `strip_suffix` on a
one-character pattern (identity when the list does not end in `c`). -/
def stripSuffixChar (c : Char) (l : List Char) : List Char :=
  if l.getLast? = some c then l.dropLast else l

/-- Rust's `str::split_inclusive('\n')`: chunks of the text, each ending
with the LF that closed it (the final chunk may lack the LF); the empty
text yields no chunks. -/
def splitInclusiveNl : List Char → List (List Char)
  | [] => []
  | c :: cs =>
    if c = '\n' then [c] :: splitInclusiveNl cs
    else
      match splitInclusiveNl cs with
      | [] => [[c]]
      | l :: ls => (c :: l) :: ls

/-- Model of the per-chunk map of Rust's `str::lines`: strip one
trailing LF; only when an LF was actually stripped, also strip one
trailing CR (the CRLF case); an unterminated chunk is returned
verbatim, keeping any trailing CR (std docs: the last line of
`"foo\r\nbar\n\nbaz\r"` is `"baz\r"`). -/
def lineMap (l : List Char) : List Char :=
  if l.getLast? = some '\n' then stripSuffixChar '\r' l.dropLast else l

/-- Rust's `str::lines`: every inclusive chunk through `lineMap`. -/
def rustLines (text : List Char) : List (List Char) :=
  (splitInclusiveNl text).map lineMap

/-- Full split of the text on LF: `n` newlines yield `n + 1` segments,
none containing LF. -/
def splitOnNl : List Char → List (List Char)
  | [] => [[]]
  | c :: cs =>
    if c = '\n' then [] :: splitOnNl cs
    else
      match splitOnNl cs with
      | [] => [[c]]
      | l :: ls => (c :: l) :: ls

/-- Reattach the LF terminator to every segment but the last, and keep
the last segment only when it is non-empty: the view relating the full
LF split back to the inclusive chunks. -/
def reattachNl (segs : List (List Char)) : List (List Char) :=
  segs.dropLast.map (fun s => s ++ ['\n']) ++
    (match segs.getLast? with
     | some [] => []
     | some seg => [seg]
     | none => [])

/-- The specification's wording of the word table (spec 4.3): split the
text on line terminators — LF, or CRLF, whose CR is removed together
with its LF — one word per line in text order, with any trailing empty
segment discarded. The segment after the last terminator is
unterminated text and is kept verbatim (a lone trailing CR is part of
no terminator). Stated from the spec's words, to be proved equal to
`rustLines`. -/
def specLines (text : List Char) : List (List Char) :=
  (splitOnNl text).dropLast.map (stripSuffixChar '\r') ++
    (match (splitOnNl text).getLast? with
     | some [] => []
     | some seg => [seg]
     | none => [])

namespace Words

/-- Word-table builder `init_<lang>` of `src/words.rs`:
`COMPRESSED.get_or_init(..).lines().collect()`, with the cached
decompressed text abstracted as the parameter. -/
def init (text : List Char) : List Wrd :=
  rustLines text

/-- Crate-internal `words::get`: the cached word table. -/
def get (text : List Char) : List Wrd :=
  init text

end Words

namespace RandomWord

/-- Model of `random_word::all` of `src/lib.rs`: the full word table. -/
def all (text : List Char) : List Wrd :=
  Words.get text

end RandomWord

lemma splitOnNl_ne_nil (cs : List Char) : splitOnNl cs ≠ [] := by
  match cs with
  | [] => simp [splitOnNl]
  | c :: cs =>
    simp only [splitOnNl]
    split
    · simp
    · split <;> simp

lemma splitInclusiveNl_cons_ne_nil (c : Char) (cs : List Char) :
    splitInclusiveNl (c :: cs) ≠ [] := by
  simp only [splitInclusiveNl]
  split
  · simp
  · split <;> simp

lemma splitInclusiveNl_ne_nil {cs : List Char} (h : cs ≠ []) :
    splitInclusiveNl cs ≠ [] := by
  obtain ⟨c, cs, rfl⟩ := List.exists_cons_of_ne_nil h
  exact splitInclusiveNl_cons_ne_nil c cs

lemma splitInclusiveNl_nl (cs : List Char) :
    splitInclusiveNl ('\n' :: cs) = ['\n'] :: splitInclusiveNl cs := by
  simp [splitInclusiveNl]

lemma splitInclusiveNl_cons_of_ne {c : Char} {cs l : List Char} {ls : List (List Char)}
    (hc : c ≠ '\n') (hsi : splitInclusiveNl cs = l :: ls) :
    splitInclusiveNl (c :: cs) = (c :: l) :: ls := by
  simp only [splitInclusiveNl, if_neg hc, hsi]

lemma splitOnNl_nl (cs : List Char) :
    splitOnNl ('\n' :: cs) = [] :: splitOnNl cs := by
  simp [splitOnNl]

lemma splitOnNl_cons_of_ne {c : Char} {cs h : List Char} {t : List (List Char)}
    (hc : c ≠ '\n') (hso : splitOnNl cs = h :: t) :
    splitOnNl (c :: cs) = (c :: h) :: t := by
  simp only [splitOnNl, if_neg hc, hso]

lemma nl_not_mem_splitOnNl (text : List Char) :
    ∀ seg ∈ splitOnNl text, '\n' ∉ seg := by
  induction text with
  | nil =>
    intro seg hseg
    simp only [splitOnNl, List.mem_singleton] at hseg
    simp [hseg]
  | cons c cs ih =>
    by_cases hc : c = '\n'
    · subst hc
      rw [splitOnNl_nl]
      intro seg hseg
      rcases List.mem_cons.mp hseg with h | h
      · simp [h]
      · exact ih seg h
    · obtain ⟨h, t, hso⟩ := List.exists_cons_of_ne_nil (splitOnNl_ne_nil cs)
      rw [splitOnNl_cons_of_ne hc hso]
      intro seg hseg
      rcases List.mem_cons.mp hseg with hs | hs
      · subst hs
        intro hmem
        rcases List.mem_cons.mp hmem with hh | hh
        · exact hc hh.symm
        · exact ih h (hso ▸ List.mem_cons_self ..) hh
      · exact ih seg (hso ▸ List.mem_cons_of_mem _ hs)

lemma reattachNl_cons (x : List Char) (S : List (List Char)) (h : S ≠ []) :
    reattachNl (x :: S) = (x ++ ['\n']) :: reattachNl S := by
  obtain ⟨a, S, rfl⟩ := List.exists_cons_of_ne_nil h
  simp only [reattachNl, List.dropLast_cons_of_ne_nil (List.cons_ne_nil a S),
    List.map_cons, List.getLast?_cons_cons, List.cons_append]

lemma splitInclusiveNl_eq_reattach (text : List Char) :
    splitInclusiveNl text = reattachNl (splitOnNl text) := by
  induction text with
  | nil => rfl
  | cons c cs ih =>
    by_cases hc : c = '\n'
    · subst hc
      rw [splitInclusiveNl_nl, splitOnNl_nl,
        reattachNl_cons _ _ (splitOnNl_ne_nil cs), ← ih]
      rfl
    · by_cases hcs : cs = []
      · subst hcs
        simp [splitInclusiveNl, splitOnNl, reattachNl, hc]
      · obtain ⟨l, ls, hsi⟩ := List.exists_cons_of_ne_nil (splitInclusiveNl_ne_nil hcs)
        obtain ⟨h, t, hso⟩ := List.exists_cons_of_ne_nil (splitOnNl_ne_nil cs)
        rw [hsi, hso] at ih
        rw [splitInclusiveNl_cons_of_ne hc hsi, splitOnNl_cons_of_ne hc hso]
        cases t with
        | nil =>
          by_cases hh : h = []
          · subst hh
            simp [reattachNl] at ih
          · obtain ⟨a, h1, rfl⟩ := List.exists_cons_of_ne_nil hh
            simp only [reattachNl, List.dropLast_single, List.map_nil,
              List.getLast?_singleton, List.nil_append] at ih ⊢
            injection ih with ih1 ih2
            rw [ih1, ih2]
        | cons t0 t1 =>
          rw [reattachNl_cons _ _ (List.cons_ne_nil t0 t1)] at ih
          rw [reattachNl_cons _ _ (List.cons_ne_nil t0 t1)]
          injection ih with ih1 ih2
          rw [ih1, ih2]
          simp [List.cons_append]

lemma lineMap_concat_nl (s : List Char) :
    lineMap (s ++ ['\n']) = stripSuffixChar '\r' s := by
  simp [lineMap, List.getLast?_concat, List.dropLast_concat]

lemma lineMap_of_no_nl {s : List Char} (h : '\n' ∉ s) : lineMap s = s := by
  unfold lineMap
  rw [if_neg]
  intro hl
  exact h (List.mem_of_mem_getLast? hl)

lemma rustLines_eq_specLines (text : List Char) : rustLines text = specLines text := by
  unfold rustLines specLines
  rw [splitInclusiveNl_eq_reattach]
  unfold reattachNl
  rw [List.map_append, List.map_map]
  congr 1
  · have hf : (lineMap ∘ fun s => s ++ ['\n']) = stripSuffixChar '\r' :=
      funext fun s => lineMap_concat_nl s
    rw [hf]
  · cases hl : (splitOnNl text).getLast? with
    | none => rfl
    | some seg =>
      cases seg with
      | nil => rfl
      | cons a s =>
        have hmem : (a :: s) ∈ splitOnNl text := List.mem_of_mem_getLast? hl
        have hnl : '\n' ∉ (a :: s) := nl_not_mem_splitOnNl text _ hmem
        simp [lineMap_of_no_nl hnl]

section IndexModel

variable {κ : Type} [DecidableEq κ]

/-- Model of `map.entry(k).or_insert_with(Vec::new).push(w)` on the association-list
view of the `AHashMap`: append `w` to the bucket of `k`, creating a
singleton bucket when `k` is absent. -/
def insertEntry (m : List (κ × List Wrd)) (k : κ) (w : Wrd) : List (κ × List Wrd) :=
  match m with
  | [] => [(k, [w])]
  | (k', vs) :: rest =>
    if k = k' then (k', vs ++ [w]) :: rest else (k', vs) :: insertEntry rest k w

/-- Model of `AHashMap::get` on the association-list view. -/
def lookupIdx (m : List (κ × List Wrd)) (k : κ) : Option (List Wrd) :=
  match m with
  | [] => none
  | (k', vs) :: rest => if k = k' then some vs else lookupIdx rest k

/-- The single pass over the word table shared by `init_<lang>_len` and
`init_<lang>_starts_with`: fold the table, pushing each word into the
bucket of its key. -/
def buildIndex (keyOf : Wrd → κ) (ws : List Wrd) : List (κ × List Wrd) :=
  ws.foldl (fun m w => insertEntry m (keyOf w) w) []

end IndexModel

/-- The first character of a word, with an arbitrary default for the
empty word (the defaulted case is never reached on valid corpora). -/
def headKey (w : Wrd) : Char :=
  w.headD ' '

namespace Words

/-- Model of `init_<lang>_len` of `src/words.rs`: one pass over the word table,
keying each word by `word.chars().count()` — on the `List Char` model,
the list length. -/
def init_len (ws : List Wrd) : List (Nat × List Wrd) :=
  buildIndex (fun w => w.length) ws

/-- Crate-internal `words::get_len`: look the length up in the cached
length index (`None` when the key is absent). -/
def get_len (len : Nat) (ws : List Wrd) : Option (List Wrd) :=
  lookupIdx (init_len ws) len

/-- Model of `init_<lang>_starts_with` of `src/words.rs`: one pass over the word
table, keying each word by `word.chars().next().expect("empty word")`.
The `expect` panic is modelled by the `Option`: `none` means the
construction aborts on an empty word. -/
def init_starts_with (ws : List Wrd) : Option (List (Char × List Wrd)) :=
  ws.foldlM (fun m w => (w.head?).map (fun c => insertEntry m c w)) []

/-- Crate-internal `words::get_starts_with`: look the character up in the
cached first-char index. The outer `Option` is the `expect("empty word")`
panic during index construction; the inner one is key absence. -/
def get_starts_with (ch : Char) (ws : List Wrd) : Option (Option (List Wrd)) :=
  (init_starts_with ws).map (fun m => lookupIdx m ch)

end Words

/-- Model of `rand`'s `slice.choose(&mut rng())`: `none` on the empty slice, else
the element at the drawn index. The random draw is modelled by an
arbitrary `i : Nat` reduced modulo the slice length. -/
def choose (l : List Wrd) (i : Nat) : Option Wrd :=
  l[i % l.length]?

namespace RandomWord

/-- Model of `random_word::get` of `src/lib.rs`:
`words::get(lang).choose(&mut rng()).expect("array is empty")`; the
`none` case is the panic on an empty table. -/
def get (text : List Char) (i : Nat) : Option Wrd :=
  choose (all text) i

/-- Model of `random_word::all_len` of `src/lib.rs` (the boxed-slice deref is the
identity on the model). -/
def all_len (len : Nat) (text : List Char) : Option (List Wrd) :=
  Words.get_len len (Words.get text)

/-- Model of `random_word::get_len` of `src/lib.rs`:
`words::get_len(len, lang)?.choose(&mut rng()).copied()`. -/
def get_len (len : Nat) (text : List Char) (i : Nat) : Option Wrd :=
  (Words.get_len len (Words.get text)).bind (fun b => choose b i)

/-- Model of `random_word::all_starts_with` of `src/lib.rs`; the outer `Option`
is the `expect("empty word")` panic during index construction. -/
def all_starts_with (ch : Char) (text : List Char) : Option (Option (List Wrd)) :=
  Words.get_starts_with ch (Words.get text)

/-- Model of `random_word::get_starts_with` of `src/lib.rs`:
`words::get_starts_with(ch, lang)?.choose(&mut rng()).copied()`; the
outer `Option` is the construction panic, the inner `none` the absent
key. -/
def get_starts_with (ch : Char) (text : List Char) (i : Nat) : Option (Option Wrd) :=
  (Words.get_starts_with ch (Words.get text)).map (fun ob => ob.bind (fun b => choose b i))

end RandomWord

/-- Model of `OnceLock::get_or_init` on a cell state: return the cached value, or
run the initializer and cache it. The third component counts how many
times the initializer ran in this call (0 or 1). -/
def getOrInit {α : Type} (cell : Option α) (f : Unit → α) : α × Option α × Nat :=
  match cell with
  | some v => (v, some v, 0)
  | none => (f (), some (f ()), 1)

/-- Iterated calls, `n` of them, of `getOrInit` through the same cell: the list
of returned values, the final cell state, and the total number of
initializer executions. -/
def callN {α : Type} (f : Unit → α) : Nat → Option α → List α × Option α × Nat
  | 0, cell => ([], cell, 0)
  | n + 1, cell =>
    let r := getOrInit cell f
    let rest := callN f n r.2.1
    (r.1 :: rest.1, rest.2.1, r.2.2 + rest.2.2)

/-- The bucket of a key, with the empty default for an absent key. -/
def bktD {κ : Type} [DecidableEq κ] (m : List (κ × List Wrd)) (k : κ) : List Wrd :=
  (lookupIdx m k).getD []

/-- Well-formed line endings: every CR in the text is immediately
followed by an LF, i.e. the text mixes only Unix (`LF`) and Windows
(`CRLF`) line terminators and its line contents are CR-free. -/
def crOK : List Char → Bool
  | [] => true
  | c :: cs => ((c != '\r') || (cs.head? == some '\n')) && crOK cs

/-- The scalar U+0301, COMBINING ACUTE ACCENT: a combining mark that forms one
grapheme cluster with a preceding base letter but is its own Unicode
scalar value. -/
def combiningAcute : Char :=
  Char.ofNat 769

/-- A small concrete corpus used by the witnesses: the two-word list
`Ab`, `ab`. -/
def sampleText : List Char :=
  ['A', 'b', '\n', 'a', 'b']

section IndexLemmas

variable {κ : Type} [DecidableEq κ]

lemma lookupIdx_insertEntry (m : List (κ × List Wrd)) (k k' : κ) (w : Wrd) :
    lookupIdx (insertEntry m k w) k' =
      if k' = k then some (bktD m k ++ [w]) else lookupIdx m k' := by
  induction m with
  | nil =>
    simp only [insertEntry, lookupIdx, bktD]
    split <;> simp [lookupIdx]
  | cons p rest ih =>
    obtain ⟨k₀, vs⟩ := p
    by_cases hk : k = k₀
    · subst hk
      by_cases hk' : k' = k
      · subst hk'
        simp [insertEntry, lookupIdx, bktD]
      · simp [insertEntry, lookupIdx, hk']
    · by_cases hk' : k' = k₀
      · subst hk'
        have hne : ¬k' = k := fun h => hk h.symm
        simp [insertEntry, lookupIdx, hk, hne]
      · simp [insertEntry, lookupIdx, hk, hk', ih, bktD]

lemma bktD_foldl (keyOf : Wrd → κ) (ws : List Wrd) :
    ∀ (m : List (κ × List Wrd)) (k : κ),
      bktD (ws.foldl (fun m w => insertEntry m (keyOf w) w) m) k
        = bktD m k ++ ws.filter (fun w => keyOf w = k) := by
  induction ws with
  | nil => intro m k; simp
  | cons w ws ih =>
    intro m k
    rw [List.foldl_cons, ih, List.filter_cons]
    by_cases hk : keyOf w = k
    · rw [if_pos (by simpa using hk)]
      unfold bktD
      rw [lookupIdx_insertEntry, if_pos hk.symm]
      simp [bktD, hk, List.append_assoc]
    · rw [if_neg (by simpa using hk)]
      unfold bktD
      rw [lookupIdx_insertEntry, if_neg (fun h => hk h.symm)]

lemma insertEntry_snd_ne_nil {m : List (κ × List Wrd)} {k : κ} {w : Wrd}
    (hm : ∀ p ∈ m, p.2 ≠ []) : ∀ p ∈ insertEntry m k w, p.2 ≠ [] := by
  induction m with
  | nil => simp [insertEntry]
  | cons q rest ih =>
    obtain ⟨k₀, vs⟩ := q
    simp only [insertEntry]
    split
    · intro p hp
      rcases List.mem_cons.mp hp with h | h
      · subst h; simp
      · exact hm p (List.mem_cons_of_mem _ h)
    · intro p hp
      rcases List.mem_cons.mp hp with h | h
      · subst h; exact hm (k₀, vs) (List.mem_cons_self ..)
      · exact ih (fun q hq => hm q (List.mem_cons_of_mem _ hq)) p h

lemma buildIndex_snd_ne_nil (keyOf : Wrd → κ) (ws : List Wrd) :
    ∀ p ∈ buildIndex keyOf ws, p.2 ≠ [] := by
  suffices h : ∀ m, (∀ p ∈ m, p.2 ≠ []) →
      ∀ p ∈ ws.foldl (fun m w => insertEntry m (keyOf w) w) m, p.2 ≠ [] by
    exact h [] (by simp)
  induction ws with
  | nil => intro m hm; simpa using hm
  | cons w ws ih =>
    intro m hm
    rw [List.foldl_cons]
    exact ih _ (insertEntry_snd_ne_nil hm)

lemma lookupIdx_mem {m : List (κ × List Wrd)} {k : κ} {v : List Wrd}
    (h : lookupIdx m k = some v) : (k, v) ∈ m := by
  induction m with
  | nil => simp [lookupIdx] at h
  | cons p rest ih =>
    obtain ⟨k₀, vs⟩ := p
    simp only [lookupIdx] at h
    split at h
    · rename_i hk
      cases h
      subst hk
      exact List.mem_cons_self ..
    · exact List.mem_cons_of_mem _ (ih h)

lemma lookupIdx_buildIndex (keyOf : Wrd → κ) (ws : List Wrd) (k : κ) :
    lookupIdx (buildIndex keyOf ws) k =
      if ws.filter (fun w => keyOf w = k) = [] then none
      else some (ws.filter (fun w => keyOf w = k)) := by
  have hb : bktD (buildIndex keyOf ws) k = ws.filter (fun w => keyOf w = k) := by
    have h := bktD_foldl keyOf ws [] k
    simpa [buildIndex, bktD, lookupIdx] using h
  cases hl : lookupIdx (buildIndex keyOf ws) k with
  | none =>
    have hf : ws.filter (fun w => keyOf w = k) = [] := by
      rw [← hb]; simp [bktD, hl]
    rw [if_pos hf]
  | some v =>
    have hv : ws.filter (fun w => keyOf w = k) = v := by
      rw [← hb]; simp [bktD, hl]
    have hne : v ≠ [] := buildIndex_snd_ne_nil keyOf ws (k, v) (lookupIdx_mem hl)
    rw [if_neg (hv ▸ hne), hv]

lemma flatten_insertEntry (m : List (κ × List Wrd)) (k : κ) (w : Wrd) :
    List.Perm ((insertEntry m k w).map Prod.snd).flatten
      (w :: (m.map Prod.snd).flatten) := by
  induction m with
  | nil => simp [insertEntry]
  | cons p rest ih =>
    obtain ⟨k₀, vs⟩ := p
    by_cases hk : k = k₀
    · simp only [insertEntry, if_pos hk, List.map_cons, List.flatten_cons]
      rw [List.append_assoc]
      exact List.perm_middle
    · simp only [insertEntry, if_neg hk, List.map_cons, List.flatten_cons]
      exact (ih.append_left vs).trans List.perm_middle

lemma flatten_buildIndex (keyOf : Wrd → κ) (ws : List Wrd) :
    List.Perm ((buildIndex keyOf ws).map Prod.snd).flatten ws := by
  suffices h : ∀ m,
      List.Perm ((ws.foldl (fun m w => insertEntry m (keyOf w) w) m).map Prod.snd).flatten
        ((m.map Prod.snd).flatten ++ ws) by
    simpa [buildIndex] using h []
  induction ws with
  | nil => intro m; simp
  | cons w ws ih =>
    intro m
    rw [List.foldl_cons]
    refine (ih (insertEntry m (keyOf w) w)).trans ?_
    refine (((flatten_insertEntry m (keyOf w) w).append_right ws).trans ?_)
    simpa using List.perm_middle.symm

end IndexLemmas

lemma foldlM_starts_with_eq (ws : List Wrd) :
    ∀ (m : List (Char × List Wrd)), (∀ w ∈ ws, w ≠ []) →
      ws.foldlM (fun m w => (w.head?).map (fun c => insertEntry m c w)) m
        = some (ws.foldl (fun m w => insertEntry m (headKey w) w) m) := by
  induction ws with
  | nil => intro m _; rfl
  | cons w ws ih =>
    intro m hw
    obtain ⟨c, w', rfl⟩ := List.exists_cons_of_ne_nil (hw _ (List.mem_cons_self ..))
    rw [List.foldlM_cons]
    simp only [List.head?_cons, Option.map_some']
    show List.foldlM _ (insertEntry m c (c :: w')) ws = _
    rw [ih _ (fun w hmem => hw w (List.mem_cons_of_mem _ hmem)), List.foldl_cons]
    rfl

lemma init_starts_with_eq {ws : List Wrd} (h : ∀ w ∈ ws, w ≠ []) :
    Words.init_starts_with ws = some (buildIndex headKey ws) :=
  foldlM_starts_with_eq ws [] h

lemma filter_headKey_eq {ws : List Wrd} (h : ∀ w ∈ ws, w ≠ []) (ch : Char) :
    ws.filter (fun w => headKey w = ch) = ws.filter (fun w => w.head? = some ch) := by
  apply List.filter_congr
  intro w hw
  obtain ⟨c, w', rfl⟩ := List.exists_cons_of_ne_nil (h w hw)
  simp [headKey]

lemma choose_eq_none_iff (l : List Wrd) (i : Nat) : choose l i = none ↔ l = [] := by
  unfold choose
  constructor
  · intro h
    by_contra hne
    have hlt : i % l.length < l.length := Nat.mod_lt _ (List.length_pos.mpr hne)
    rw [List.getElem?_eq_getElem hlt] at h
    cases h
  · rintro rfl
    simp

lemma choose_mem {l : List Wrd} {i : Nat} {w : Wrd} (h : choose l i = some w) : w ∈ l :=
  List.getElem?_mem h

lemma choose_isSome {l : List Wrd} (hne : l ≠ []) (i : Nat) :
    ∃ w, choose l i = some w := by
  have hlt : i % l.length < l.length := Nat.mod_lt _ (List.length_pos.mpr hne)
  exact ⟨_, List.getElem?_eq_getElem hlt⟩

lemma length_filter_range_getElem (l : List Wrd) (w : Wrd) :
    ((List.range l.length).filter (fun i => l[i]? = some w)).length = l.count w := by
  induction l with
  | nil => simp
  | cons a l ih =>
    rw [List.length_cons, List.range_succ_eq_map, List.filter_cons, List.filter_map]
    have hc : ((fun i => decide ((a :: l)[i]? = some w)) ∘ Nat.succ)
        = (fun i => decide (l[i]? = some w)) := by
      funext i
      simp [Function.comp]
    rw [hc]
    by_cases haw : a = w
    · subst haw
      rw [if_pos (by simp)]
      simp only [List.length_cons, List.length_map, ih, List.count_cons]
      simp
    · rw [if_neg (by simpa using fun h : a = w => haw h)]
      rw [List.length_map, ih, List.count_cons]
      simp [haw]

lemma callN_some {α : Type} (f : Unit → α) (v : α) :
    ∀ n, callN f n (some v) = (List.replicate n v, some v, 0) := by
  intro n
  induction n with
  | zero => rfl
  | succ n ih => simp [callN, getOrInit, ih, List.replicate_succ]

lemma mem_bucket_self {κ : Type} [DecidableEq κ] (keyOf : Wrd → κ) {ws : List Wrd}
    {w : Wrd} (hw : w ∈ ws) :
    ∃ b, lookupIdx (buildIndex keyOf ws) (keyOf w) = some b ∧ w ∈ b := by
  have hmem : w ∈ ws.filter (fun x => keyOf x = keyOf w) :=
    List.mem_filter.mpr ⟨hw, by simp⟩
  rw [lookupIdx_buildIndex, if_neg (List.ne_nil_of_mem hmem)]
  exact ⟨_, rfl, hmem⟩

lemma bucket_key_of_mem {κ : Type} [DecidableEq κ] (keyOf : Wrd → κ) {ws : List Wrd}
    {w : Wrd} {k : κ} {b : List Wrd}
    (hb : lookupIdx (buildIndex keyOf ws) k = some b) (hw : w ∈ b) : keyOf w = k := by
  rw [lookupIdx_buildIndex] at hb
  split at hb
  · cases hb
  · cases hb
    simpa using (List.mem_filter.mp hw).2

lemma bucket_ne_nil {κ : Type} [DecidableEq κ] (keyOf : Wrd → κ) {ws : List Wrd}
    {k : κ} {b : List Wrd} (hb : lookupIdx (buildIndex keyOf ws) k = some b) :
    b ≠ [] :=
  buildIndex_snd_ne_nil keyOf ws (k, b) (lookupIdx_mem hb)

lemma choose_uniform (l : List Wrd) (w : Wrd) :
    ((List.range l.length).filter (fun i => choose l i = some w)).length = l.count w := by
  rw [List.filter_congr (q := fun i => decide (l[i]? = some w)) (fun i hi => ?_),
    length_filter_range_getElem]
  have hmod : i % l.length = i := Nat.mod_eq_of_lt (List.mem_range.mp hi)
  simp [choose, hmod]

lemma crOK_tail {c : Char} {cs : List Char} (h : crOK (c :: cs) = true) :
    crOK cs = true := by
  simp only [crOK, Bool.and_eq_true] at h
  exact h.2

lemma crOK_cr {cs : List Char} (h : crOK ('\r' :: cs) = true) :
    cs.head? = some '\n' := by
  simp only [crOK, Bool.and_eq_true, Bool.or_eq_true, bne_self_eq_false] at h
  simpa using h.1.resolve_left (by simp)

lemma cr_not_mem_dropLast_splitOnNl {text : List Char} (hcr : crOK text = true) :
    ∀ seg ∈ splitOnNl text, '\r' ∉ seg.dropLast := by
  induction text with
  | nil =>
    intro seg hseg
    simp only [splitOnNl, List.mem_singleton] at hseg
    simp [hseg]
  | cons c cs ih =>
    by_cases hc : c = '\n'
    · subst hc
      rw [splitOnNl_nl]
      intro seg hseg
      rcases List.mem_cons.mp hseg with h | h
      · simp [h]
      · exact ih (crOK_tail hcr) seg h
    · obtain ⟨h, t, hso⟩ := List.exists_cons_of_ne_nil (splitOnNl_ne_nil cs)
      rw [splitOnNl_cons_of_ne hc hso]
      intro seg hseg
      rcases List.mem_cons.mp hseg with hs | hs
      · subst hs
        by_cases hh : h = []
        · simp [hh]
        · rw [List.dropLast_cons_of_ne_nil hh]
          intro hmem
          rcases List.mem_cons.mp hmem with hm | hm
          · apply hh
            have hcn : cs.head? = some '\n' := crOK_cr (hm ▸ hcr)
            obtain ⟨cs', rfl⟩ : ∃ cs', cs = '\n' :: cs' := by
              cases cs with
              | nil => cases hcn
              | cons x xs =>
                refine ⟨xs, ?_⟩
                simp only [List.head?_cons, Option.some.injEq] at hcn
                rw [hcn]
            rw [splitOnNl_nl] at hso
            exact (List.cons.injEq .. ▸ hso).1.symm
          · exact ih (crOK_tail hcr) h (hso ▸ List.mem_cons_self ..) hm
      · exact ih (crOK_tail hcr) seg (hso ▸ List.mem_cons_of_mem _ hs)

lemma stripSuffixChar_subset (c : Char) (l : List Char) :
    stripSuffixChar c l ⊆ l := by
  unfold stripSuffixChar
  split
  · exact (List.dropLast_sublist _).subset
  · exact fun x hx => hx

lemma cr_not_mem_getLast_splitOnNl {text : List Char} (hcr : crOK text = true) :
    ∀ seg, (splitOnNl text).getLast? = some seg → '\r' ∉ seg := by
  induction text with
  | nil =>
    intro seg hseg
    simp only [splitOnNl, List.getLast?_singleton, Option.some.injEq] at hseg
    simp [← hseg]
  | cons c cs ih =>
    by_cases hc : c = '\n'
    · subst hc
      rw [splitOnNl_nl]
      intro seg hseg
      obtain ⟨a, S, hS⟩ := List.exists_cons_of_ne_nil (splitOnNl_ne_nil cs)
      rw [hS, List.getLast?_cons_cons, ← hS] at hseg
      exact ih (crOK_tail hcr) seg hseg
    · obtain ⟨h, t, hso⟩ := List.exists_cons_of_ne_nil (splitOnNl_ne_nil cs)
      rw [splitOnNl_cons_of_ne hc hso]
      intro seg hseg
      cases t with
      | nil =>
        simp only [List.getLast?_singleton, Option.some.injEq] at hseg
        subst hseg
        intro hmem
        rcases List.mem_cons.mp hmem with hm | hm
        · have hcn : cs.head? = some '\n' := crOK_cr (hm ▸ hcr)
          obtain ⟨cs1, rfl⟩ : ∃ cs1, cs = '\n' :: cs1 := by
            cases cs with
            | nil => cases hcn
            | cons x xs =>
              refine ⟨xs, ?_⟩
              simp only [List.head?_cons, Option.some.injEq] at hcn
              rw [hcn]
          rw [splitOnNl_nl] at hso
          injection hso with hso1 hso2
          exact splitOnNl_ne_nil cs1 hso2
        · have hlast : (splitOnNl cs).getLast? = some h := by
            rw [hso, List.getLast?_singleton]
          exact ih (crOK_tail hcr) h hlast hm
      | cons t0 t1 =>
        rw [List.getLast?_cons_cons] at hseg
        refine ih (crOK_tail hcr) seg ?_
        rw [hso, List.getLast?_cons_cons]
        exact hseg

lemma cr_not_mem_strip {seg : List Char} (h : '\r' ∉ seg.dropLast) :
    '\r' ∉ stripSuffixChar '\r' seg := by
  unfold stripSuffixChar
  split
  · exact h
  · rename_i hlast
    intro hmem
    by_cases hnil : seg = []
    · subst hnil; cases hmem
    · rw [← List.dropLast_append_getLast hnil, List.mem_append] at hmem
      rcases hmem with hm | hm
      · exact h hm
      · apply hlast
        rw [List.getLast?_eq_getLast _ hnil]
        simpa using (List.mem_singleton.mp hm).symm

-- sanity checks on the `lines` embedding (Rust semantics)
example : rustLines ['a', 'b', '\n', 'c', 'd'] = [['a', 'b'], ['c', 'd']] := by decide
example : rustLines ['a', '\n'] = [['a']] := by decide
example : rustLines ['a', '\r', '\n', 'b'] = [['a'], ['b']] := by decide
example : rustLines ['\n'] = [[]] := by decide
example : rustLines ['\r'] = [['\r']] := by decide
example : rustLines ['a', '\r'] = [['a', '\r']] := by decide
example : rustLines [] = [] := by decide
example : rustLines ['a', '\r', '\r', '\n'] = [['a', '\r']] := by decide
example : rustLines ['f', 'o', 'o', '\r', '\n', 'b', 'a', 'r', '\n', '\n', 'b', 'a', 'z', '\r']
    = [['f', 'o', 'o'], ['b', 'a', 'r'], [], ['b', 'a', 'z', '\r']] := by decide
example : specLines ['a', '\r', '\r', '\n'] = [['a', '\r']] := by decide
example : specLines ['\r'] = [['\r']] := by decide
example : specLines ['a', '\r'] = [['a', '\r']] := by decide
example : specLines ['\n'] = [[]] := by decide
example : specLines [] = [] := by decide

/-- Claim C1: for every corpus, the word table returned by `all` equals
the sequence obtained by splitting the cached decompressed text on line
terminators (`specLines`, stated from the spec's words: a terminator is
LF or CRLF, whose CR is removed with it; the final unterminated segment
is kept verbatim), one word per line, in text order, with any trailing
empty segment discarded. -/
theorem all_eq_spec_line_split (text : List Char) :
    RandomWord.all text = specLines text := by
  unfold RandomWord.all Words.get Words.init
  exact rustLines_eq_specLines text

/-- Claim C2: for every length and corpus, `all_len` returns `some`
slice holding exactly the words of the table whose logical character
count equals the length, in word-table order, when at least one such
word exists, and `none` when none does. -/
theorem all_len_eq_filter (len : Nat) (text : List Char) :
    RandomWord.all_len len text =
      if (RandomWord.all text).filter (fun w => w.length = len) = [] then none
      else some ((RandomWord.all text).filter (fun w => w.length = len)) := by
  unfold RandomWord.all_len RandomWord.all Words.get_len Words.init_len
  exact lookupIdx_buildIndex (fun w => w.length) (Words.get text) len

/-- Claim C3: for every character and corpus with non-empty words,
`all_starts_with` returns (without hitting the construction panic, hence
the outer `some`) exactly the words whose first logical character equals
the queried character under exact `Char` equality — case-sensitive, with
no normalization — in word-table order when at least one exists, and the
absent-key `none` when none does. -/
theorem all_starts_with_eq_filter (ch : Char) (text : List Char)
    (h : ∀ w ∈ RandomWord.all text, w ≠ []) :
    RandomWord.all_starts_with ch text =
      some (if (RandomWord.all text).filter (fun w => w.head? = some ch) = [] then none
            else some ((RandomWord.all text).filter (fun w => w.head? = some ch))) := by
  unfold RandomWord.all_starts_with Words.get_starts_with RandomWord.all
  have h' : ∀ w ∈ Words.get text, w ≠ [] := h
  rw [init_starts_with_eq h', Option.map_some']
  congr 1
  rw [lookupIdx_buildIndex, filter_headKey_eq h' ch]

/-- Witness for C3 at the concrete corpus `Ab\nab`: only the
lowercase-`a` word is in the bucket of `a` (exact, case-sensitive). -/
theorem all_starts_with_eq_filter_witness :
    (∀ w ∈ RandomWord.all sampleText, w ≠ []) ∧
    RandomWord.all_starts_with 'a' sampleText =
      some (if (RandomWord.all sampleText).filter (fun w => w.head? = some 'a') = []
              then none
            else some ((RandomWord.all sampleText).filter (fun w => w.head? = some 'a'))) :=
  ⟨by decide, all_starts_with_eq_filter 'a' sampleText (by decide)⟩

/-- Claim C4: for every corpus with non-empty words, the length index
and the first-char index each partition the word table — every word lies
in the bucket keyed by its logical character count and in no other
length bucket, every word lies in the bucket keyed by its first logical
character and in no other first-char bucket, and the concatenation of
all the buckets of either index is a permutation (multiset equality) of
the word table. -/
theorem index_partition (text : List Char) (h : ∀ w ∈ RandomWord.all text, w ≠ []) :
    (∀ w ∈ RandomWord.all text,
      ∃ b, RandomWord.all_len w.length text = some b ∧ w ∈ b) ∧
    (∀ w ∈ RandomWord.all text, ∀ len b,
      RandomWord.all_len len text = some b → w ∈ b → len = w.length) ∧
    List.Perm ((Words.init_len (RandomWord.all text)).map Prod.snd).flatten
      (RandomWord.all text) ∧
    (∃ idx, Words.init_starts_with (RandomWord.all text) = some idx ∧
      (∀ w ∈ RandomWord.all text,
        ∃ c b, w.head? = some c ∧ lookupIdx idx c = some b ∧ w ∈ b) ∧
      (∀ w ∈ RandomWord.all text, ∀ c b,
        lookupIdx idx c = some b → w ∈ b → w.head? = some c) ∧
      List.Perm (idx.map Prod.snd).flatten (RandomWord.all text)) := by
  have h' : ∀ w ∈ Words.get text, w ≠ [] := h
  refine ⟨?_, ?_, ?_, buildIndex headKey (Words.get text), init_starts_with_eq h',
    ?_, ?_, flatten_buildIndex headKey (Words.get text)⟩
  · intro w hw
    exact mem_bucket_self (fun w => w.length) hw
  · intro w _ len b hb hwb
    exact (bucket_key_of_mem (fun w => w.length) hb hwb).symm
  · exact flatten_buildIndex (fun w => w.length) (Words.get text)
  · intro w hw
    obtain ⟨c, w', rfl⟩ := List.exists_cons_of_ne_nil (h w hw)
    obtain ⟨b, hb, hwb⟩ := mem_bucket_self headKey hw
    exact ⟨c, b, rfl, by simpa [headKey] using hb, hwb⟩
  · intro w hw c b hb hwb
    have hk : headKey w = c := bucket_key_of_mem headKey hb hwb
    obtain ⟨c0, w', rfl⟩ := List.exists_cons_of_ne_nil (h w hw)
    simp only [headKey, List.headD] at hk
    simp [hk]

/-- Witness for C4 at the concrete corpus `Ab\nab`. -/
theorem index_partition_witness :
    (∀ w ∈ RandomWord.all sampleText, w ≠ []) ∧
    ((∀ w ∈ RandomWord.all sampleText,
      ∃ b, RandomWord.all_len w.length sampleText = some b ∧ w ∈ b) ∧
    (∀ w ∈ RandomWord.all sampleText, ∀ len b,
      RandomWord.all_len len sampleText = some b → w ∈ b → len = w.length) ∧
    List.Perm ((Words.init_len (RandomWord.all sampleText)).map Prod.snd).flatten
      (RandomWord.all sampleText) ∧
    (∃ idx, Words.init_starts_with (RandomWord.all sampleText) = some idx ∧
      (∀ w ∈ RandomWord.all sampleText,
        ∃ c b, w.head? = some c ∧ lookupIdx idx c = some b ∧ w ∈ b) ∧
      (∀ w ∈ RandomWord.all sampleText, ∀ c b,
        lookupIdx idx c = some b → w ∈ b → w.head? = some c) ∧
      List.Perm (idx.map Prod.snd).flatten (RandomWord.all sampleText))) :=
  ⟨by decide, index_partition sampleText (by decide)⟩

/-- Claim C5: for every length, character, corpus with non-empty words
and random draw, the random `get_len` returns `none` exactly when
`all_len` returns `none`, and otherwise some element of that bucket;
and the same holds for `get_starts_with` with respect to the bucket
`all_starts_with` returns (inside the shared panic-free `some`). -/
theorem random_of_bucket (len : Nat) (ch : Char) (text : List Char) (i : Nat)
    (h : ∀ w ∈ RandomWord.all text, w ≠ []) :
    (RandomWord.get_len len text i = none ↔ RandomWord.all_len len text = none) ∧
    (∀ w, RandomWord.get_len len text i = some w →
      ∃ b, RandomWord.all_len len text = some b ∧ w ∈ b) ∧
    (∃ r, RandomWord.all_starts_with ch text = some r ∧
      RandomWord.get_starts_with ch text i = some (r.bind (fun b => choose b i)) ∧
      (r.bind (fun b => choose b i) = none ↔ r = none) ∧
      (∀ w, r.bind (fun b => choose b i) = some w → ∃ b, r = some b ∧ w ∈ b)) := by
  have h' : ∀ w ∈ Words.get text, w ≠ [] := h
  refine ⟨?_, ?_, ?_⟩
  · unfold RandomWord.get_len RandomWord.all_len
    cases hg : Words.get_len len (Words.get text) with
    | none => simp
    | some b =>
      have hne : b ≠ [] := bucket_ne_nil (fun w => w.length) hg
      obtain ⟨w, hw⟩ := choose_isSome hne i
      simp [hw]
  · intro w hw
    unfold RandomWord.get_len at hw
    unfold RandomWord.all_len
    cases hg : Words.get_len len (Words.get text) with
    | none => rw [hg] at hw; cases hw
    | some b =>
      rw [hg] at hw
      exact ⟨b, rfl, choose_mem hw⟩
  · refine ⟨lookupIdx (buildIndex headKey (Words.get text)) ch, ?_, ?_, ?_, ?_⟩
    · unfold RandomWord.all_starts_with Words.get_starts_with
      rw [init_starts_with_eq h', Option.map_some']
    · unfold RandomWord.get_starts_with Words.get_starts_with
      rw [init_starts_with_eq h', Option.map_some', Option.map_some']
    · cases hr : lookupIdx (buildIndex headKey (Words.get text)) ch with
      | none => simp
      | some b =>
        have hne : b ≠ [] := bucket_ne_nil headKey hr
        obtain ⟨w, hw⟩ := choose_isSome hne i
        simp [hw]
    · intro w hw
      cases hr : lookupIdx (buildIndex headKey (Words.get text)) ch with
      | none => rw [hr] at hw; cases hw
      | some b =>
        rw [hr] at hw
        exact ⟨b, rfl, choose_mem hw⟩

/-- Witness for C5 at the concrete corpus `Ab\nab`, length 2, character
`a`, draw 0. -/
theorem random_of_bucket_witness :
    (∀ w ∈ RandomWord.all sampleText, w ≠ []) ∧
    ((RandomWord.get_len 2 sampleText 0 = none ↔ RandomWord.all_len 2 sampleText = none) ∧
    (∀ w, RandomWord.get_len 2 sampleText 0 = some w →
      ∃ b, RandomWord.all_len 2 sampleText = some b ∧ w ∈ b) ∧
    (∃ r, RandomWord.all_starts_with 'a' sampleText = some r ∧
      RandomWord.get_starts_with 'a' sampleText 0 = some (r.bind (fun b => choose b 0)) ∧
      (r.bind (fun b => choose b 0) = none ↔ r = none) ∧
      (∀ w, r.bind (fun b => choose b 0) = some w → ∃ b, r = some b ∧ w ∈ b))) :=
  ⟨by decide, random_of_bucket 2 'a' sampleText 0 (by decide)⟩

/-- Claim C6: the `OnceLock::get_or_init` discipline of every
per-language cell means repeated calls return the identical cached
value and the initializer runs exactly once: `n ≥ 1` successive calls
through an initially empty cell all return the once-computed value. -/
theorem cached_calls_stable {α : Type} (f : Unit → α) (n : Nat) (h : 1 ≤ n) :
    (callN f n none).1 = List.replicate n (f ()) ∧ (callN f n none).2.2 = 1 := by
  cases n with
  | zero => cases h
  | succ m => simp [callN, getOrInit, callN_some, List.replicate_succ]

/-- Witness for C6: two calls of the word-table initializer on the
concrete corpus `Ab\nab` share one initialization. -/
theorem cached_calls_stable_witness :
    1 ≤ 2 ∧ ((callN (fun _ => Words.init sampleText) 2 none).1
        = List.replicate 2 (Words.init sampleText)
      ∧ (callN (fun _ => Words.init sampleText) 2 none).2.2 = 1) :=
  ⟨by decide, cached_calls_stable (fun _ => Words.init sampleText) 2 (by decide)⟩

lemma choose_uniform_optionBucket (r : Option (List Wrd)) (w : Wrd) :
    ((List.range (r.getD []).length).filter
        (fun i => some (r.bind fun b => choose b i) = some (some w))).length
      = (r.getD []).count w := by
  cases r with
  | none => simp
  | some b =>
    simp only [Option.getD_some, Option.some_bind, Option.some.injEq]
    exact choose_uniform b w

/-- Claim C7: each random operation selects uniformly over its target
slice under the uniform draw model — `get` is `none` (the fatal branch)
exactly on an empty table, and for each of `get`, `get_len` and
`get_starts_with`, the number of draws in `0..slice.length` hitting a
given word equals that word's multiplicity in the slice, i.e. every
element has equal selection probability. -/
theorem uniform_selection (text : List Char) (len : Nat) (ch : Char) :
    (∀ i, RandomWord.get text i = none ↔ RandomWord.all text = []) ∧
    (∀ w, ((List.range (RandomWord.all text).length).filter
        (fun i => RandomWord.get text i = some w)).length
      = (RandomWord.all text).count w) ∧
    (∀ w, ((List.range ((RandomWord.all_len len text).getD []).length).filter
        (fun i => RandomWord.get_len len text i = some w)).length
      = ((RandomWord.all_len len text).getD []).count w) ∧
    (∀ w, ((List.range (((RandomWord.all_starts_with ch text).getD none).getD []).length).filter
        (fun i => RandomWord.get_starts_with ch text i = some (some w))).length
      = (((RandomWord.all_starts_with ch text).getD none).getD []).count w) := by
  refine ⟨fun i => choose_eq_none_iff (RandomWord.all text) i,
    fun w => choose_uniform (RandomWord.all text) w, ?_, ?_⟩
  · intro w
    unfold RandomWord.all_len RandomWord.get_len
    cases hg : Words.get_len len (Words.get text) with
    | none => simp
    | some b =>
      simp only [hg, Option.getD_some, Option.some_bind]
      exact choose_uniform b w
  · intro w
    unfold RandomWord.all_starts_with RandomWord.get_starts_with Words.get_starts_with
    cases hi : Words.init_starts_with (Words.get text) with
    | none => simp
    | some m =>
      simp only [hi, Option.map_some', Option.getD_some]
      exact choose_uniform_optionBucket (lookupIdx m ch) w

/-- Claim C8: under the precondition that the word table has no empty
entry (no blank line in the decompressed text) and — as holds for every
compiled-in corpus — is itself non-empty, the two fatal branches are
unreachable: the `expect("empty word")` of the first-char index
construction succeeds, and the `expect("array is empty")` of `get`
always receives a word. -/
theorem fatal_branches_unreachable (text : List Char)
    (h1 : ∀ w ∈ RandomWord.all text, w ≠ []) (h2 : RandomWord.all text ≠ []) :
    (∃ idx, Words.init_starts_with (RandomWord.all text) = some idx) ∧
    (∀ i, ∃ w, RandomWord.get text i = some w) := by
  have h1' : ∀ w ∈ Words.get text, w ≠ [] := h1
  exact ⟨⟨_, init_starts_with_eq h1'⟩, fun i => choose_isSome h2 i⟩

/-- Witness for C8 at the concrete corpus `Ab\nab`. -/
theorem fatal_branches_unreachable_witness :
    ((∀ w ∈ RandomWord.all sampleText, w ≠ []) ∧ RandomWord.all sampleText ≠ []) ∧
    ((∃ idx, Words.init_starts_with (RandomWord.all sampleText) = some idx) ∧
      (∀ i, ∃ w, RandomWord.get sampleText i = some w)) :=
  ⟨⟨by decide, by decide⟩, fatal_branches_unreachable sampleText (by decide) (by decide)⟩

/-- Counterexample to C9 as stated: on the corpus `a\r\r\n` (a line
ending in two carriage returns before the line feed), the single word
the public surface returns is `a\r`, which ends in a carriage return —
only the one CR adjacent to the LF is stripped. -/
theorem word_with_trailing_cr :
    RandomWord.all ['a', '\r', '\r', '\n'] = [['a', '\r']] ∧
    (['a', '\r'] : Wrd).getLast? = some '\r' := by
  decide

/-- Claim C9 (amended): every word the public operations return
contains no LF; and when every CR of the decompressed text is
immediately followed by an LF (pure Unix- or Windows-style line
endings), words contain no CR either — in particular no trailing CR. -/
theorem words_no_terminator (text : List Char) (w : Wrd)
    (hw : w ∈ RandomWord.all text) :
    '\n' ∉ w ∧ (crOK text = true → '\r' ∉ w) := by
  have hw2 : w ∈ rustLines text := hw
  rw [rustLines_eq_specLines] at hw2
  unfold specLines at hw2
  rcases List.mem_append.mp hw2 with hleft | hright
  · obtain ⟨seg, hdseg, rfl⟩ := List.mem_map.mp hleft
    have hseg : seg ∈ splitOnNl text := (List.dropLast_sublist _).subset hdseg
    constructor
    · intro hmem
      exact nl_not_mem_splitOnNl text seg hseg (stripSuffixChar_subset '\r' seg hmem)
    · intro hcr
      exact cr_not_mem_strip (cr_not_mem_dropLast_splitOnNl hcr seg hseg)
  · have hl : (splitOnNl text).getLast? = some w := by
      cases hl : (splitOnNl text).getLast? with
      | none => rw [hl] at hright; cases hright
      | some seg =>
        cases seg with
        | nil => rw [hl] at hright; cases hright
        | cons a s =>
          rw [hl] at hright
          obtain rfl : w = a :: s := List.mem_singleton.mp hright
          rfl
    have hseg : w ∈ splitOnNl text := List.mem_of_mem_getLast? hl
    exact ⟨fun hmem => nl_not_mem_splitOnNl text w hseg hmem,
      fun hcr => cr_not_mem_getLast_splitOnNl hcr w hl⟩

/-- Witness for the amended C9 at the concrete corpus `Ab\nab`, word
`Ab`. -/
theorem words_no_terminator_witness :
    (['A', 'b'] : Wrd) ∈ RandomWord.all sampleText ∧
    ('\n' ∉ (['A', 'b'] : Wrd) ∧ '\r' ∉ (['A', 'b'] : Wrd)) :=
  ⟨by decide, (words_no_terminator sampleText ['A', 'b'] (by decide)).1,
    (words_no_terminator sampleText ['A', 'b'] (by decide)).2 (by decide)⟩

/-- Claim C10: the logical-character unit of both indexes is the
Unicode scalar value, not the grapheme cluster: the one-grapheme,
two-scalar word `e` + U+0301 sits in the length bucket 2 (none exists
for length 1), and is keyed in the first-char index under the base
scalar `e` alone (the combining mark keys no bucket). -/
theorem scalar_value_indexing :
    RandomWord.all_len 2 ['e', combiningAcute] = some [['e', combiningAcute]] ∧
    RandomWord.all_len 1 ['e', combiningAcute] = none ∧
    RandomWord.all_starts_with 'e' ['e', combiningAcute]
      = some (some [['e', combiningAcute]]) ∧
    RandomWord.all_starts_with combiningAcute ['e', combiningAcute] = some none := by
  decide
